import Mathlib

/-!
Shallow embedding of `blockchain.py` (class `Blockchain`).

The block hash in the source is
`hashlib.sha256(json.dumps(block, sort_keys=True)).hexdigest()`.  The SHA-256
digest and the JSON rendering of primitive values are external library
operations; they appear here as function parameters (`H`, `sha256hex`,
`renderV`).  The repository's own contribution to hashing (canonical key
ordering via `sort_keys=True`) is modelled concretely (`sortKeys`).

Python exceptions (`IndexError` from `chain[0]` / `chain[-1]`, network errors
escaping `requests.get`) are modelled with `Option`: `none` is an uncaught
exception.  `time()` is threaded in as an explicit `now` argument, and the
`timestamp` float is modelled as an opaque value.
-/

/-- A pending transaction, as built by `Blockchain.new_transaction`. -/
structure Transaction where
  sender : String
  recipient : String
  amount : Int
  deriving DecidableEq, Repr, Inhabited

/-- A block dictionary as built by `Blockchain.new_block`. -/
structure Block where
  index : Nat
  timestamp : Nat
  transactions : List Transaction
  proof : Int
  previous_hash : String
  deriving DecidableEq, Repr, Inhabited

/-- The mutable state owned by a `Blockchain` instance (`self.chain` and
`self.pending_transactions`). -/
structure LedgerState where
  chain : List Block
  pending_transactions : List Transaction
  deriving DecidableEq, Repr

namespace Blockchain

/-- Source `Blockchain.valid_proof`: `Blockchain.hash(block)[:4] == "0000"`.
`H` stands for the SHA-256 block hash. -/
def valid_proof (H : Block → String) (b : Block) : Bool :=
  (H b).take 4 == "0000"

/-- The `while current_index < len(chain)` loop of `Blockchain.valid_chain`:
the first argument is `last_block` (the previously examined block), the list is
the remaining part `chain[current_index:]`. -/
def valid_chain_loop (H : Block → String) : Block → List Block → Bool
  | _, [] => true
  | last, b :: rest =>
    if b.previous_hash != H last then false
    else if !valid_proof H b then false
    else valid_chain_loop H b rest

/-- Source `Blockchain.valid_chain`.  `last_block = chain[0]` raises
`IndexError` on an empty list, modelled by `none`. -/
def valid_chain (H : Block → String) (chain : List Block) : Option Bool :=
  match chain with
  | [] => none
  | first :: rest => some (valid_chain_loop H first rest)

/-- Source `Blockchain.proof_of_work`:
`while not valid_proof(block): block["proof"] += 1`.  The unbounded `while`
loop is given explicit fuel; `none` means the fuel ran out before a valid
proof was reached. -/
def proof_of_work (H : Block → String) : Nat → Block → Option Block
  | 0, _ => none
  | fuel + 1, b =>
    if valid_proof H b then some b
    else proof_of_work H fuel { b with proof := b.proof + 1 }

/-- Source `Blockchain.new_block`.  `previous_hash or self.hash(self.chain[-1])`:
`None` and the empty string are falsy, in which case `chain[-1]` is hashed
(raising `IndexError`, i.e. `none`, on an empty chain).  Returns the updated
state (block appended, pool cleared) together with the new block. -/
def new_block (H : Block → String) (st : LedgerState) (now : Nat) (proof : Int)
    (previous_hash : Option String) : Option (LedgerState × Block) :=
  let fallback : Option String := st.chain.getLast?.map H
  let ph? : Option String :=
    match previous_hash with
    | some s => if s = "" then fallback else some s
    | none => fallback
  match ph? with
  | none => none
  | some ph =>
    let b : Block :=
      { index := st.chain.length + 1, timestamp := now,
        transactions := st.pending_transactions, proof := proof,
        previous_hash := ph }
    some ({ chain := st.chain ++ [b], pending_transactions := [] }, b)

/-- Source `Blockchain.new_transaction`: the append to the pool happens first;
the return value reads `self.last_block['index']`, which raises (`none`) on an
empty chain (unreachable after construction). -/
def new_transaction (st : LedgerState) (sender recipient : String) (amount : Int) :
    LedgerState × Option Int :=
  let st' : LedgerState :=
    { st with pending_transactions := st.pending_transactions ++
        [{ sender := sender, recipient := recipient, amount := amount }] }
  (st', st'.chain.getLast?.map (fun lb => (lb.index : Int) + 1))

/-- Source `Blockchain.__init__`: empty chain and pool, then
`self.new_block(previous_hash = '1', proof = 100)`. -/
def init (H : Block → String) (now : Nat) : Option LedgerState :=
  (new_block H { chain := [], pending_transactions := [] } now 100 (some "1")).map Prod.fst

/-- Result of `requests.get(f'http://\x7bnode\x7d/chain')` for one peer: either
the call raises (connection error / timeout), or it returns a response carrying
a status code and, as read by the resolver, the JSON fields `length` and
`chain`. -/
inductive FetchResult where
  | raises : FetchResult
  | response (status : Nat) (length : Int) (chain : List Block) : FetchResult
  deriving DecidableEq, Repr

/-- The `for node in neighbors` loop of `Blockchain.resolve_conflict`.
`maxLength` and `best` are the running `max_length` and `new_chain`; the outer
`Option` is `none` when an exception escapes (a raising fetch, or `valid_chain`
applied to an empty candidate). -/
def resolve_loop (H : Block → String) :
    List FetchResult → Int → Option (List Block) → Option (Option (List Block))
  | [], _, best => some best
  | FetchResult.raises :: _, _, _ => none
  | FetchResult.response status len chain :: rest, maxLength, best =>
    if status = 200 then
      if maxLength < len then
        match valid_chain H chain with
        | none => none
        | some true => resolve_loop H rest len (some chain)
        | some false => resolve_loop H rest maxLength best
      else resolve_loop H rest maxLength best
    else resolve_loop H rest maxLength best

/-- Source `Blockchain.resolve_conflict`.  The peers are given as the list of
fetch outcomes in the (unspecified) iteration order of `self.nodes`.
`if new_chain:` tests Python truthiness, so an empty recorded list would also
be rejected. -/
def resolve_conflict (H : Block → String) (st : LedgerState) (peers : List FetchResult) :
    Option (LedgerState × Bool) :=
  match resolve_loop H peers (st.chain.length : Int) none with
  | none => none
  | some none => some (st, false)
  | some (some nc) =>
    if nc.isEmpty then some (st, false)
    else some ({ st with chain := nc }, true)

/-- Order on dictionary items by key, as produced by
`json.dumps(..., sort_keys = True)`. -/
def keyLE {V : Type} (p q : String × V) : Prop := p.1 ≤ q.1

instance {V : Type} : DecidableRel (@keyLE V) :=
  fun p q => inferInstanceAs (Decidable (p.1 ≤ q.1))

instance {V : Type} : IsTotal (String × V) (@keyLE V) :=
  ⟨fun p q => le_total p.1 q.1⟩

instance {V : Type} : IsTrans (String × V) (@keyLE V) :=
  ⟨fun _ _ _ h h' => le_trans h h'⟩

/-- Canonical key ordering performed by `json.dumps(..., sort_keys = True)` on
a dictionary, modelled as sorting the item list by key. -/
def sortKeys {V : Type} (d : List (String × V)) : List (String × V) :=
  List.insertionSort (@keyLE V) d

/-- JSON object rendering with `json.dumps` default separators, the values
rendered by the external `renderV`. -/
def renderJson {V : Type} (renderV : V → String) (d : List (String × V)) : String :=
  "\x7b" ++ String.intercalate ", "
    (d.map (fun p => "\"" ++ p.1 ++ "\": " ++ renderV p.2)) ++ "\x7d"

/-- Source `Blockchain.hash`:
`hashlib.sha256(json.dumps(block, sort_keys = True).encode()).hexdigest()`,
with the external digest (`sha256hex`) and primitive-value rendering
(`renderV`) as parameters and the block given as its Python dictionary:
an association list in insertion order. -/
def hash {V : Type} (sha256hex : String → String) (renderV : V → String)
    (block : List (String × V)) : String :=
  sha256hex (renderJson renderV (sortKeys block))

/-- The failure condition `valid_chain` tests at position `i ≥ 1` of a chain:
the block's `previous_hash` differs from the hash of the block before it, or
the block fails `valid_proof`. -/
def blockBadAt (H : Block → String) (c : List Block) (i : Nat) : Bool :=
  ((c.getD i default).previous_hash != H (c.getD (i - 1) default)) ||
    !valid_proof H (c.getD i default)

/-- A fetch outcome that gets recorded by the resolver when the running
`max_length` is `L`: a status-200 response whose reported `length` exceeds `L`
and whose chain passes `valid_chain`. -/
def isGoodPeer (H : Block → String) (L : Int) : FetchResult → Bool
  | FetchResult.raises => false
  | FetchResult.response status len chain =>
    status == 200 && decide (L < len) && (valid_chain H chain == some true)

/-- A degenerate block hash used to build concrete witness scenarios: every
block hashes to `"0000"`, so every block passes `valid_proof`. -/
def constHash : Block → String := fun _ => "0000"

/-- The genesis block created by `Blockchain.__init__` when the clock reads
`now`: `new_block(previous_hash = '1', proof = 100)` on an empty chain. -/
def genesisBlock (now : Nat) : Block :=
  { index := 1, timestamp := now, transactions := [], proof := 100, previous_hash := "1" }

/-- The block produced by `new_block(p)` at time `t1` on a fresh ledger
(created at time `t0`) whose pool holds the single transaction `(A, B, 10)`. -/
def minedBlock (H : Block → String) (t0 t1 : Nat) (p : Int) (A B : String) : Block :=
  { index := 2, timestamp := t1,
    transactions := [{ sender := A, recipient := B, amount := 10 }],
    proof := p, previous_hash := H (genesisBlock t0) }

/-- A concrete block whose `previous_hash` does not match `constHash`, used in
witness scenarios as a link-check failure. -/
def badBlock : Block :=
  { index := 2, timestamp := 0, transactions := [], proof := 0, previous_hash := "bad" }

/-- A concrete block whose `previous_hash` matches `constHash`, so the
two-block chain `[genesisBlock 0, okBlock]` passes `valid_chain constHash`. -/
def okBlock : Block :=
  { index := 2, timestamp := 0, transactions := [], proof := 0, previous_hash := "0000" }

/-- A concrete ledger state for witness scenarios: one genesis block and one
pending transaction. -/
def wState : LedgerState :=
  { chain := [genesisBlock 0],
    pending_transactions := [{ sender := "A", recipient := "B", amount := 10 }] }

/-- A concrete two-block chain accepted by `valid_chain constHash`. -/
def wChain2 : List Block := [genesisBlock 0, okBlock]

/-- The state `wState` after its chain is replaced by `wChain2` (pool kept). -/
def wReplaced : LedgerState :=
  { chain := wChain2, pending_transactions := wState.pending_transactions }

/-- Claim C5: a freshly constructed ledger has a chain of length exactly 1,
whose only block has `index = 1`, `previous_hash = "1"`, `proof = 100`, and an
empty pending-transaction pool. -/
theorem init_genesis (H : Block → String) (now : Nat) :
    init H now = some { chain := [genesisBlock now], pending_transactions := [] } := rfl

/-- Counterexample to claim C10 at chain `[]`: the empty chain has length at
most 1, but `valid_chain` does not return `True` on it — `chain[0]` raises
`IndexError` (modelled by `none`). -/
theorem valid_chain_nil_raises :
    ([] : List Block).length ≤ 1 ∧
    valid_chain constHash ([] : List Block) ≠ some true ∧
    valid_chain constHash ([] : List Block) = none := by
  refine ⟨by decide, by decide, rfl⟩

/-- Claim C10 (amended): for every chain of length exactly 1, `valid_chain`
returns `True` regardless of the contents of its block — the validation loop
never runs, so no field of the first block is constrained; the empty chain
instead raises `IndexError` at `chain[0]`. -/
theorem valid_chain_singleton (H : Block → String) (b : Block) :
    valid_chain H [b] = some true := rfl

/-- Helper: a character-list take equals a length-4 list exactly when that
list is a prefix. -/
theorem take_four_eq_iff (l p : List Char) (hp : p.length = 4) :
    l.take 4 = p ↔ ∃ r : List Char, l = p ++ r := by
  constructor
  · intro h
    exact ⟨l.drop 4, by rw [← h, List.take_append_drop]⟩
  · rintro ⟨r, rfl⟩
    rw [← hp, List.take_left]

/-- Claim C6: `valid_proof` holds iff the block hash begins with at least four
zero hex characters; in particular a hash with five or more leading zeros also
satisfies the predicate (prefix match, not exact count). -/
theorem valid_proof_leading_zeros (H : Block → String) (b : Block) :
    (valid_proof H b = true ↔ ∃ rest : String, H b = "0000" ++ rest) ∧
    ((∃ rest : String, H b = "00000" ++ rest) → valid_proof H b = true) := by
  have main : valid_proof H b = true ↔ ∃ rest : String, H b = "0000" ++ rest := by
    unfold valid_proof
    rw [beq_iff_eq]
    constructor
    · intro h
      rcases (take_four_eq_iff (H b).data "0000".data rfl).mp (by
        rw [← String.data_take]; exact congrArg String.data h) with ⟨r, hr⟩
      refine ⟨⟨r⟩, String.ext ?_⟩
      rw [String.data_append]
      exact hr
    · rintro ⟨rest, hrest⟩
      apply String.ext
      rw [String.data_take, hrest, String.data_append]
      exact (take_four_eq_iff _ "0000".data rfl).mpr ⟨rest.data, rfl⟩
  refine ⟨main, ?_⟩
  rintro ⟨rest, hrest⟩
  refine main.mpr ⟨⟨'0' :: rest.data⟩, String.ext ?_⟩
  rw [hrest, String.data_append, String.data_append]
  rfl

/-- Witness for C6: the constant hash `"0000"` begins with four zeros, so the
characterization yields `valid_proof` at any concrete block. -/
theorem valid_proof_leading_zeros_witness :
    valid_proof constHash (genesisBlock 0) = true :=
  (valid_proof_leading_zeros constHash (genesisBlock 0)).1.mpr ⟨"", by decide⟩

/-- Claim C8: starting from a fresh ledger, `newTransaction(A, B, 10)` followed
by `newBlock(p)` yields a block whose transaction list is exactly
`[(A, B, 10)]` and leaves the pool empty; a second `newTransaction` immediately
afterwards returns `lastBlock.index + 1`. -/
theorem transaction_flow (H : Block → String) (t0 t1 : Nat) (p : Int)
    (A B s2 r2 : String) (a2 : Int) :
    init H t0 = some { chain := [genesisBlock t0], pending_transactions := [] } ∧
    new_transaction { chain := [genesisBlock t0], pending_transactions := [] } A B 10 =
      ({ chain := [genesisBlock t0],
         pending_transactions := [{ sender := A, recipient := B, amount := 10 }] }, some 2) ∧
    new_block H
        { chain := [genesisBlock t0],
          pending_transactions := [{ sender := A, recipient := B, amount := 10 }] } t1 p none =
      some ({ chain := [genesisBlock t0, minedBlock H t0 t1 p A B],
              pending_transactions := [] }, minedBlock H t0 t1 p A B) ∧
    (minedBlock H t0 t1 p A B).transactions = [{ sender := A, recipient := B, amount := 10 }] ∧
    (new_transaction
        { chain := [genesisBlock t0, minedBlock H t0 t1 p A B], pending_transactions := [] }
        s2 r2 a2).2 =
      some (((minedBlock H t0 t1 p A B).index : Int) + 1) :=
  ⟨rfl, rfl, rfl, rfl, rfl⟩

/-- Claim C7: whenever some proof value at distance `k` above the block's
current proof satisfies `valid_proof`, the proof-of-work search terminates
(within fuel `k + 1`) at a block identical to the input except for `proof`,
which has moved up by some `j ≤ k` — so the proof field is non-decreasing and
the result satisfies `valid_proof`. -/
theorem proof_of_work_spec (H : Block → String) (b : Block) (k : Nat)
    (hk : valid_proof H { b with proof := b.proof + (k : Int) } = true) :
    ∃ j : Nat, j ≤ k ∧
      proof_of_work H (k + 1) b = some { b with proof := b.proof + (j : Int) } ∧
      valid_proof H { b with proof := b.proof + (j : Int) } = true := by
  induction k generalizing b with
  | zero =>
    have hb : valid_proof H b = true := by simpa using hk
    refine ⟨0, le_refl 0, ?_, hk⟩
    simp [proof_of_work, hb]
  | succ k ih =>
    by_cases hb : valid_proof H b = true
    · refine ⟨0, Nat.zero_le _, ?_, ?_⟩
      · simp [proof_of_work, hb]
      · simpa using hb
    · have hb' : valid_proof H b = false := by simpa using hb
      have hcast : b.proof + ((k + 1 : Nat) : Int) = (b.proof + 1) + (k : Int) := by
        push_cast; ring
      rw [hcast] at hk
      rcases ih { b with proof := b.proof + 1 } hk with ⟨j, hj, hpow, hvalid⟩
      have hcast' : (b.proof + 1) + (j : Int) = b.proof + ((j + 1 : Nat) : Int) := by
        push_cast; ring
      refine ⟨j + 1, Nat.succ_le_succ hj, ?_, ?_⟩
      · have hstep : proof_of_work H (k + 1 + 1) b =
            proof_of_work H (k + 1) { b with proof := b.proof + 1 } := by
          simp [proof_of_work, hb']
        rw [hstep, hpow]
        simp only [Option.some.injEq, Block.mk.injEq]
        refine ⟨trivial, trivial, trivial, by push_cast; ring, trivial⟩
      · have hvalid' : valid_proof H { b with proof := b.proof + 1 + (j : Int) } = true := by
          simpa using hvalid
        rw [← hcast']
        exact hvalid'

/-- Witness for C7: on the degenerate constant hash every block already has a
valid proof, so the search at the genesis block succeeds with fuel 1. -/
theorem proof_of_work_spec_witness :
    ∃ j : Nat, j ≤ 0 ∧
      proof_of_work constHash (0 + 1) (genesisBlock 0) =
        some { genesisBlock 0 with proof := (genesisBlock 0).proof + (j : Int) } ∧
      valid_proof constHash { genesisBlock 0 with proof := (genesisBlock 0).proof + (j : Int) } =
        true :=
  proof_of_work_spec constHash (genesisBlock 0) 0 (by decide)

/-- Helper: `getD` on a `take` prefix agrees with `getD` on the full list at
indices inside the prefix. -/
theorem getD_take_of_lt (c : List Block) (m k : Nat) (h : k < m) :
    (c.take m).getD k default = c.getD k default := by
  rw [List.getD_eq_getElem?_getD, List.getD_eq_getElem?_getD, List.getElem?_take, if_pos h]

/-- Helper: `getD` on an appended list agrees with `getD` on the left part at
indices inside it. -/
theorem getD_append_of_lt (c tail : List Block) (k : Nat) (h : k < c.length) :
    (c ++ tail).getD k default = c.getD k default := by
  rw [List.getD_eq_getElem?_getD, List.getD_eq_getElem?_getD, List.getElem?_append, if_pos h]

/-- Helper: the failure condition at a position inside a `take` prefix is the
failure condition on the full chain. -/
theorem blockBadAt_take (H : Block → String) (c : List Block) (m i : Nat)
    (h2 : i < m) :
    blockBadAt H (c.take m) i = blockBadAt H c i := by
  unfold blockBadAt
  rw [getD_take_of_lt c m i h2, getD_take_of_lt c m (i - 1) (lt_of_le_of_lt (Nat.sub_le i 1) h2)]

/-- Helper: the failure condition at a position inside the left part of an
appended chain ignores the appended tail. -/
theorem blockBadAt_append (H : Block → String) (c tail : List Block) (i : Nat)
    (h2 : i < c.length) :
    blockBadAt H (c ++ tail) i = blockBadAt H c i := by
  unfold blockBadAt
  rw [getD_append_of_lt c tail i h2,
    getD_append_of_lt c tail (i - 1) (lt_of_le_of_lt (Nat.sub_le i 1) h2)]

/-- Helper: the failure condition shifts across the head of the chain. -/
theorem blockBadAt_cons_shift (H : Block → String) (x b : Block) (rest : List Block) (j : Nat) :
    blockBadAt H (x :: b :: rest) (j + 2) = blockBadAt H (b :: rest) (j + 1) := rfl

/-- Helper: the validation loop returns `false` exactly when some position
`j + 1` of the walked chain satisfies the failure condition. -/
theorem valid_chain_loop_false_iff (H : Block → String) (last : Block) (bs : List Block) :
    valid_chain_loop H last bs = false ↔
      ∃ j, j < bs.length ∧ blockBadAt H (last :: bs) (j + 1) = true := by
  induction bs generalizing last with
  | nil => simp [valid_chain_loop]
  | cons b rest ih =>
    have hbad1 : blockBadAt H (last :: b :: rest) 1 =
        ((b.previous_hash != H last) || !valid_proof H b) := rfl
    by_cases h1 : (b.previous_hash != H last) = true
    · have hloop : valid_chain_loop H last (b :: rest) = false := by
        simp [valid_chain_loop, h1]
      rw [hloop]
      constructor
      · intro _
        exact ⟨0, Nat.succ_pos _, by rw [hbad1]; simp [h1]⟩
      · intro _; rfl
    · have h1' : (b.previous_hash != H last) = false := by simpa using h1
      by_cases h2 : valid_proof H b = true
      · have hloop : valid_chain_loop H last (b :: rest) = valid_chain_loop H b rest := by
          simp [valid_chain_loop, h1', h2]
        rw [hloop, ih b]
        constructor
        · rintro ⟨j, hj, hb⟩
          refine ⟨j + 1, by simpa using Nat.succ_lt_succ hj, ?_⟩
          rw [← hb]
          exact blockBadAt_cons_shift H last b rest j
        · rintro ⟨j, hj, hb⟩
          match j, hb with
          | 0, hb =>
            rw [hbad1] at hb
            rw [h1', h2] at hb
            simp at hb
          | j + 1, hb =>
            refine ⟨j, by simpa using Nat.lt_of_succ_lt_succ hj, ?_⟩
            rw [← blockBadAt_cons_shift H last b rest j]
            exact hb
      · have h2' : valid_proof H b = false := by simpa using h2
        have hloop : valid_chain_loop H last (b :: rest) = false := by
          simp [valid_chain_loop, h1', h2']
        rw [hloop]
        constructor
        · intro _
          exact ⟨0, Nat.succ_pos _, by rw [hbad1]; simp [h2']⟩
        · intro _; rfl

/-- Claim C1: on a non-empty chain, `valid_chain` treats `chain[0]` as trusted.
It returns `False` exactly when some position `i ≥ 1` fails the link check
(`previous_hash` differs from the hash of the block before it) or `valid_proof`,
and `True` otherwise; a chain truncated just after a failing position yields
`False` whatever blocks follow (the first failure decides, later blocks are
never examined); and the first block enters the outcome only through its hash
(its own fields, in particular its proof, are never checked directly). -/
theorem valid_chain_spec (H : Block → String) (b0 : Block) (rest : List Block) :
    (valid_chain H (b0 :: rest) = some false ↔
      ∃ i, 1 ≤ i ∧ i < (b0 :: rest).length ∧ blockBadAt H (b0 :: rest) i = true) ∧
    (valid_chain H (b0 :: rest) = some true ↔
      ∀ i, 1 ≤ i → i < (b0 :: rest).length → blockBadAt H (b0 :: rest) i = false) ∧
    (∀ i, 1 ≤ i → i < (b0 :: rest).length → blockBadAt H (b0 :: rest) i = true →
      ∀ tail, valid_chain H ((b0 :: rest).take (i + 1) ++ tail) = some false) ∧
    (∀ b0', H b0' = H b0 → valid_chain H (b0' :: rest) = valid_chain H (b0 :: rest)) := by
  have hsome : ∀ v : Bool, valid_chain H (b0 :: rest) = some v ↔ valid_chain_loop H b0 rest = v := by
    intro v
    unfold valid_chain
    exact ⟨fun h => Option.some.inj h, congrArg some⟩
  have hreindex : (∃ j, j < rest.length ∧ blockBadAt H (b0 :: rest) (j + 1) = true) ↔
      (∃ i, 1 ≤ i ∧ i < (b0 :: rest).length ∧ blockBadAt H (b0 :: rest) i = true) := by
    constructor
    · rintro ⟨j, hj, hb⟩
      exact ⟨j + 1, Nat.succ_le_succ (Nat.zero_le j), by simpa using Nat.succ_lt_succ hj, hb⟩
    · rintro ⟨i, h1, h2, hb⟩
      match i, h1, h2, hb with
      | j + 1, _, h2, hb => exact ⟨j, by simpa using Nat.lt_of_succ_lt_succ h2, hb⟩
  have hfalse : valid_chain H (b0 :: rest) = some false ↔
      ∃ i, 1 ≤ i ∧ i < (b0 :: rest).length ∧ blockBadAt H (b0 :: rest) i = true := by
    rw [hsome false, valid_chain_loop_false_iff]
    exact hreindex
  refine ⟨hfalse, ?_, ?_, ?_⟩
  · rw [hsome true]
    constructor
    · intro htrue i hi1 hi2
      cases hb : blockBadAt H (b0 :: rest) i
      · rfl
      · exfalso
        have : valid_chain_loop H b0 rest = false := by
          rw [valid_chain_loop_false_iff]
          exact hreindex.mpr ⟨i, hi1, hi2, hb⟩
        rw [htrue] at this
        exact Bool.noConfusion this
    · intro hall
      cases hloop : valid_chain_loop H b0 rest
      · exfalso
        rcases hreindex.mp ((valid_chain_loop_false_iff H b0 rest).mp hloop) with ⟨i, h1, h2, hb⟩
        rw [hall i h1 h2] at hb
        exact Bool.noConfusion hb
      · rfl
  · intro i hi1 hi2 hb tail
    match i, hi1 with
    | i + 1, _ =>
      have htake : (b0 :: rest).take (i + 1 + 1) ++ tail = b0 :: (rest.take (i + 1) ++ tail) := by
        rw [List.take_succ_cons]
        rfl
      rw [htake]
      unfold valid_chain
      refine congrArg some ?_
      rw [valid_chain_loop_false_iff]
      have hlen : i < rest.length := by simpa using Nat.lt_of_succ_lt_succ hi2
      refine ⟨i, ?_, ?_⟩
      · simp only [List.length_append, List.length_take]
        omega
      · have e1 : b0 :: (rest.take (i + 1) ++ tail) = (b0 :: rest.take (i + 1)) ++ tail := rfl
        have e2 : (b0 :: rest.take (i + 1)) = (b0 :: rest).take (i + 1 + 1) := by
          rw [List.take_succ_cons]
        rw [e1, blockBadAt_append H (b0 :: rest.take (i + 1)) tail (i + 1)
            (by simp only [List.length_cons, List.length_take]; omega),
          e2, blockBadAt_take H (b0 :: rest) (i + 1 + 1) (i + 1) (Nat.lt_succ_self _)]
        exact hb
  · intro b0' hH
    cases rest with
    | nil => rfl
    | cons b bs =>
      have hloop : valid_chain_loop H b0' (b :: bs) = valid_chain_loop H b0 (b :: bs) := by
        simp only [valid_chain_loop]
        rw [hH]
      unfold valid_chain
      exact congrArg some hloop

/-- Witness for C1: on the concrete two-block chain whose second block has a
mismatching `previous_hash`, the failure-position characterization applies and
`valid_chain` returns `False`. -/
theorem valid_chain_spec_witness :
    valid_chain constHash [genesisBlock 0, badBlock] = some false :=
  (valid_chain_spec constHash (genesisBlock 0) [badBlock]).1.mpr
    ⟨1, by decide, by decide, by decide⟩

/-- Helper: a raising fetch makes the whole resolver loop raise. -/
theorem resolve_loop_cons_raises (H : Block → String) (rest : List FetchResult)
    (M : Int) (best : Option (List Block)) :
    resolve_loop H (FetchResult.raises :: rest) M best = none := rfl

/-- Helper: a non-success status is skipped by the resolver loop. -/
theorem resolve_loop_cons_not200 (H : Block → String) (s : Nat) (l : Int) (c : List Block)
    (rest : List FetchResult) (M : Int) (best : Option (List Block)) (hs : s ≠ 200) :
    resolve_loop H (FetchResult.response s l c :: rest) M best = resolve_loop H rest M best := by
  simp [resolve_loop, hs]

/-- Helper: a status-200 response whose reported length does not exceed the
running maximum is skipped (its chain is never validated). -/
theorem resolve_loop_cons_short (H : Block → String) (l : Int) (c : List Block)
    (rest : List FetchResult) (M : Int) (best : Option (List Block)) (hl : ¬ M < l) :
    resolve_loop H (FetchResult.response 200 l c :: rest) M best = resolve_loop H rest M best := by
  simp [resolve_loop, hl]

/-- Helper: a longer candidate failing validation is discarded. -/
theorem resolve_loop_cons_invalid (H : Block → String) (l : Int) (c : List Block)
    (rest : List FetchResult) (M : Int) (best : Option (List Block)) (hl : M < l)
    (hv : valid_chain H c = some false) :
    resolve_loop H (FetchResult.response 200 l c :: rest) M best = resolve_loop H rest M best := by
  simp [resolve_loop, hl, hv]

/-- Helper: a longer candidate passing validation is recorded and raises the
running maximum to its reported length. -/
theorem resolve_loop_cons_record (H : Block → String) (l : Int) (c : List Block)
    (rest : List FetchResult) (M : Int) (best : Option (List Block)) (hl : M < l)
    (hv : valid_chain H c = some true) :
    resolve_loop H (FetchResult.response 200 l c :: rest) M best =
      resolve_loop H rest l (some c) := by
  simp [resolve_loop, hl, hv]

/-- Helper: a longer candidate that is the empty list makes `valid_chain`
raise, so the loop raises. -/
theorem resolve_loop_cons_vc_raises (H : Block → String) (l : Int) (c : List Block)
    (rest : List FetchResult) (M : Int) (best : Option (List Block)) (hl : M < l)
    (hv : valid_chain H c = none) :
    resolve_loop H (FetchResult.response 200 l c :: rest) M best = none := by
  simp [resolve_loop, hl, hv]

/-- Helper: once a candidate is recorded, a normally returning loop still holds
a candidate at the end. -/
theorem resolve_loop_best_isSome (H : Block → String) (peers : List FetchResult) :
    ∀ (M : Int) (c : List Block) (r : Option (List Block)),
      resolve_loop H peers M (some c) = some r → r.isSome = true := by
  induction peers with
  | nil =>
    intro M c r h
    rw [show r = some c from (Option.some.inj h).symm]
    rfl
  | cons fr rest ih =>
    intro M c r h
    cases fr with
    | raises => exact Option.noConfusion (resolve_loop_cons_raises H rest M (some c) ▸ h)
    | response s l ch =>
      by_cases hs : s = 200
      · subst hs
        by_cases hl : M < l
        · cases hvc : valid_chain H ch with
          | none => rw [resolve_loop_cons_vc_raises H l ch rest M (some c) hl hvc] at h
                    exact Option.noConfusion h
          | some b =>
            cases b with
            | true =>
              rw [resolve_loop_cons_record H l ch rest M (some c) hl hvc] at h
              exact ih l ch r h
            | false =>
              rw [resolve_loop_cons_invalid H l ch rest M (some c) hl hvc] at h
              exact ih M c r h
        · rw [resolve_loop_cons_short H l ch rest M (some c) hl] at h
          exact ih M c r h
      · rw [resolve_loop_cons_not200 H s l ch rest M (some c) hs] at h
        exact ih M c r h

/-- Helper: if every fetch returns and no status-200 response reports a length
above the running maximum, the loop changes nothing. -/
theorem resolve_loop_no_good (H : Block → String) (peers : List FetchResult) :
    ∀ (M : Int) (best : Option (List Block)),
      (∀ fr ∈ peers, fr ≠ FetchResult.raises) →
      (∀ s l c, FetchResult.response s l c ∈ peers → s = 200 → l ≤ M) →
      resolve_loop H peers M best = some best := by
  induction peers with
  | nil => intro M best _ _; rfl
  | cons fr rest ih =>
    intro M best hraise hlen
    cases fr with
    | raises => exact absurd rfl (hraise FetchResult.raises (List.mem_cons_self _ _))
    | response s l ch =>
      have hrest := fun fr hm => hraise fr (List.mem_cons_of_mem _ hm)
      have hlenrest := fun s' l' c' hm => hlen s' l' c' (List.mem_cons_of_mem _ hm)
      by_cases hs : s = 200
      · subst hs
        have hle : l ≤ M := hlen 200 l ch (List.mem_cons_self _ _) rfl
        rw [resolve_loop_cons_short H l ch rest M best (not_lt.mpr hle)]
        exact ih M best hrest hlenrest
      · rw [resolve_loop_cons_not200 H s l ch rest M best hs]
        exact ih M best hrest hlenrest

/-- Helper: a loop that ends with no candidate recorded saw no recordable
peer. -/
theorem resolve_loop_none_no_good (H : Block → String) (peers : List FetchResult) :
    ∀ (M : Int) (best : Option (List Block)),
      resolve_loop H peers M best = some none →
      ∀ fr ∈ peers, isGoodPeer H M fr = false := by
  induction peers with
  | nil => intro M best _ fr hm; exact absurd hm (List.not_mem_nil fr)
  | cons fr0 rest ih =>
    intro M best h fr hm
    cases fr0 with
    | raises => exact Option.noConfusion (resolve_loop_cons_raises H rest M best ▸ h)
    | response s l ch =>
      by_cases hs : s = 200
      · subst hs
        by_cases hl : M < l
        · cases hvc : valid_chain H ch with
          | none =>
            rw [resolve_loop_cons_vc_raises H l ch rest M best hl hvc] at h
            exact Option.noConfusion h
          | some b =>
            cases b with
            | true =>
              rw [resolve_loop_cons_record H l ch rest M best hl hvc] at h
              exact absurd (resolve_loop_best_isSome H rest l ch none h) (by simp)
            | false =>
              rcases List.mem_cons.mp hm with hfr | hmem
              · subst hfr; simp [isGoodPeer, hvc]
              · rw [resolve_loop_cons_invalid H l ch rest M best hl hvc] at h
                exact ih M best h fr hmem
        · rcases List.mem_cons.mp hm with hfr | hmem
          · subst hfr; simp [isGoodPeer, hl]
          · rw [resolve_loop_cons_short H l ch rest M best hl] at h
            exact ih M best h fr hmem
      · rcases List.mem_cons.mp hm with hfr | hmem
        · subst hfr; simp [isGoodPeer, hs]
        · rw [resolve_loop_cons_not200 H s l ch rest M best hs] at h
          exact ih M best h fr hmem

/-- Helper: a recorded final candidate is either the initial one or the chain
of some status-200 peer that reported a length above the loop's starting
maximum and passed validation. -/
theorem resolve_loop_some_result (H : Block → String) (peers : List FetchResult) :
    ∀ (M : Int) (best : Option (List Block)) (c : List Block),
      resolve_loop H peers M best = some (some c) →
      best = some c ∨ ∃ l ch, FetchResult.response 200 l ch ∈ peers ∧ M < l ∧
        valid_chain H ch = some true ∧ c = ch := by
  induction peers with
  | nil =>
    intro M best c h
    exact Or.inl (Option.some.inj h)
  | cons fr0 rest ih =>
    intro M best c h
    cases fr0 with
    | raises => exact Option.noConfusion (resolve_loop_cons_raises H rest M best ▸ h)
    | response s l ch =>
      by_cases hs : s = 200
      · subst hs
        by_cases hl : M < l
        · cases hvc : valid_chain H ch with
          | none =>
            rw [resolve_loop_cons_vc_raises H l ch rest M best hl hvc] at h
            exact Option.noConfusion h
          | some b =>
            cases b with
            | true =>
              rw [resolve_loop_cons_record H l ch rest M best hl hvc] at h
              rcases ih l (some ch) c h with hbest | ⟨l', ch', hmem, hl', hvc', hc⟩
              · exact Or.inr ⟨l, ch, List.mem_cons_self _ _, hl, hvc, (Option.some.inj hbest).symm⟩
              · exact Or.inr ⟨l', ch', List.mem_cons_of_mem _ hmem, lt_trans hl hl', hvc', hc⟩
            | false =>
              rw [resolve_loop_cons_invalid H l ch rest M best hl hvc] at h
              rcases ih M best c h with hbest | ⟨l', ch', hmem, hl', hvc', hc⟩
              · exact Or.inl hbest
              · exact Or.inr ⟨l', ch', List.mem_cons_of_mem _ hmem, hl', hvc', hc⟩
        · rw [resolve_loop_cons_short H l ch rest M best hl] at h
          rcases ih M best c h with hbest | ⟨l', ch', hmem, hl', hvc', hc⟩
          · exact Or.inl hbest
          · exact Or.inr ⟨l', ch', List.mem_cons_of_mem _ hmem, hl', hvc', hc⟩
      · rw [resolve_loop_cons_not200 H s l ch rest M best hs] at h
        rcases ih M best c h with hbest | ⟨l', ch', hmem, hl', hvc', hc⟩
        · exact Or.inl hbest
        · exact Or.inr ⟨l', ch', List.mem_cons_of_mem _ hmem, hl', hvc', hc⟩

/-- Helper: if some peer in the list is recordable relative to the loop's
starting maximum, a normally returning loop ends with a candidate. -/
theorem resolve_loop_good_isSome (H : Block → String) (peers : List FetchResult) :
    ∀ (M : Int) (best : Option (List Block)) (r : Option (List Block)),
      resolve_loop H peers M best = some r →
      (∃ fr ∈ peers, isGoodPeer H M fr = true) → r.isSome = true := by
  induction peers with
  | nil =>
    intro M best r _ hex
    rcases hex with ⟨fr, hm, _⟩
    exact absurd hm (List.not_mem_nil fr)
  | cons fr0 rest ih =>
    intro M best r h hex
    cases fr0 with
    | raises => exact Option.noConfusion (resolve_loop_cons_raises H rest M best ▸ h)
    | response s l ch =>
      by_cases hs : s = 200
      · subst hs
        by_cases hl : M < l
        · cases hvc : valid_chain H ch with
          | none =>
            rw [resolve_loop_cons_vc_raises H l ch rest M best hl hvc] at h
            exact Option.noConfusion h
          | some b =>
            cases b with
            | true =>
              rw [resolve_loop_cons_record H l ch rest M best hl hvc] at h
              exact resolve_loop_best_isSome H rest l ch r h
            | false =>
              rw [resolve_loop_cons_invalid H l ch rest M best hl hvc] at h
              rcases hex with ⟨fr, hm, hgood⟩
              rcases List.mem_cons.mp hm with hfr | hmem
              · subst hfr; simp [isGoodPeer, hvc] at hgood
              · exact ih M best r h ⟨fr, hmem, hgood⟩
        · rw [resolve_loop_cons_short H l ch rest M best hl] at h
          rcases hex with ⟨fr, hm, hgood⟩
          rcases List.mem_cons.mp hm with hfr | hmem
          · subst hfr; simp [isGoodPeer, hl] at hgood
          · exact ih M best r h ⟨fr, hmem, hgood⟩
      · rw [resolve_loop_cons_not200 H s l ch rest M best hs] at h
        rcases hex with ⟨fr, hm, hgood⟩
        rcases List.mem_cons.mp hm with hfr | hmem
        · subst hfr; simp [isGoodPeer, hs] at hgood
        · exact ih M best r h ⟨fr, hmem, hgood⟩

/-- Claim C2: whenever `resolve_conflict` runs to completion, it returns `True`
exactly when some scanned peer gave a status-200 response with a reported
length above the local chain length and a chain passing `valid_chain`; in that
case the local chain is replaced by such a winning candidate while the
pending-transaction pool is left unchanged, and otherwise the state is left
entirely unchanged. -/
theorem resolve_conflict_spec (H : Block → String) (st : LedgerState)
    (peers : List FetchResult) (st' : LedgerState) (r : Bool)
    (hrun : resolve_conflict H st peers = some (st', r)) :
    (r = true ↔ ∃ fr ∈ peers, isGoodPeer H (st.chain.length : Int) fr = true) ∧
    (r = true → st'.pending_transactions = st.pending_transactions ∧
      ∃ l, FetchResult.response 200 l st'.chain ∈ peers ∧ (st.chain.length : Int) < l ∧
        valid_chain H st'.chain = some true) ∧
    (r = false → st' = st) := by
  cases hloop : resolve_loop H peers (st.chain.length : Int) none with
  | none =>
    have he : resolve_conflict H st peers = none := by
      unfold resolve_conflict
      rw [hloop]
    rw [he] at hrun
    exact Option.noConfusion hrun
  | some ob =>
    cases ob with
    | none =>
      have he : resolve_conflict H st peers = some (st, false) := by
        unfold resolve_conflict
        rw [hloop]
      rw [he] at hrun
      rw [Option.some.injEq, Prod.mk.injEq] at hrun
      obtain ⟨hst, hr⟩ := hrun
      refine ⟨⟨fun h1 => ?_, fun hex => ?_⟩, fun h1 => ?_, fun _ => hst.symm⟩
      · rw [← hr] at h1
        exact Bool.noConfusion h1
      · rcases hex with ⟨fr, hm, hgood⟩
        rw [resolve_loop_none_no_good H peers _ none hloop fr hm] at hgood
        exact Bool.noConfusion hgood
      · rw [← hr] at h1
        exact Bool.noConfusion h1
    | some nc =>
      rcases resolve_loop_some_result H peers _ none nc hloop with hbest | ⟨l, ch, hmem, hl, hvc, hc⟩
      · exact Option.noConfusion hbest
      · rw [← hc] at hmem hvc
        have hne : nc ≠ [] := by
          intro h0
          rw [h0] at hvc
          exact Option.noConfusion hvc
        have hemp : nc.isEmpty = false := by
          cases nc with
          | nil => exact absurd rfl hne
          | cons a t => rfl
        have he : resolve_conflict H st peers = some ({ st with chain := nc }, true) := by
          unfold resolve_conflict
          rw [hloop]
          simp [hemp]
        rw [he] at hrun
        rw [Option.some.injEq, Prod.mk.injEq] at hrun
        obtain ⟨hst, hr⟩ := hrun
        have hgood : isGoodPeer H (st.chain.length : Int) (FetchResult.response 200 l nc) = true := by
          simp [isGoodPeer, hvc, hl]
        refine ⟨⟨fun _ => ⟨FetchResult.response 200 l nc, hmem, hgood⟩, fun _ => hr.symm⟩,
          fun _ => ?_, fun h1 => ?_⟩
        · rw [← hst]
          exact ⟨rfl, ⟨l, hmem, hl, hvc⟩⟩
        · rw [← hr] at h1
          exact Bool.noConfusion h1

/-- Witness for C2: a single status-200 peer reporting length 2 with a valid
two-block chain replaces the one-block local chain, keeps the pending pool,
and the call returns `True`. -/
theorem resolve_conflict_spec_witness :
    (true = true ↔ ∃ fr ∈ [FetchResult.response 200 2 wChain2],
      isGoodPeer constHash ((wState.chain.length : Nat) : Int) fr = true) ∧
    (true = true → wReplaced.pending_transactions = wState.pending_transactions ∧
      ∃ l, FetchResult.response 200 l wReplaced.chain ∈ [FetchResult.response 200 2 wChain2] ∧
        ((wState.chain.length : Nat) : Int) < l ∧
        valid_chain constHash wReplaced.chain = some true) ∧
    (true = false → wReplaced = wState) :=
  resolve_conflict_spec constHash wState [FetchResult.response 200 2 wChain2]
    wReplaced true (by decide)

/-- Claim C3: if every fetch returns and no status-200 response reports a
length strictly above the local chain length (ties included), the resolver
returns `False` and the state — in particular the local chain — is unchanged. -/
theorem resolve_conflict_no_longer (H : Block → String) (st : LedgerState)
    (peers : List FetchResult)
    (hraise : ∀ fr ∈ peers, fr ≠ FetchResult.raises)
    (hlen : ∀ s l c, FetchResult.response s l c ∈ peers → s = 200 →
      l ≤ (st.chain.length : Int)) :
    resolve_conflict H st peers = some (st, false) := by
  have hloop := resolve_loop_no_good H peers (st.chain.length : Int) none hraise hlen
  unfold resolve_conflict
  rw [hloop]

/-- Witness for C3: one tie-length peer (status 200, length equal to the local
length) and one non-success peer with a large reported length leave the ledger
untouched and return `False`. -/
theorem resolve_conflict_no_longer_witness :
    resolve_conflict constHash wState
      [FetchResult.response 200 1 [genesisBlock 0], FetchResult.response 404 5 wChain2] =
      some (wState, false) :=
  resolve_conflict_no_longer constHash wState
    [FetchResult.response 200 1 [genesisBlock 0], FetchResult.response 404 5 wChain2]
    (by decide)
    (by
      intro s l c hm hs
      rcases List.mem_cons.mp hm with h1 | hm2
      · injection h1 with e1 e2 e3
        subst e2
        decide
      · rcases List.mem_cons.mp hm2 with h2 | hm3
        · injection h2 with e1 e2 e3
          omega
        · exact absurd hm3 (List.not_mem_nil _))

/-- Counterexample to claim C4: a raising fetch (connection error / timeout)
is not skipped — the exception propagates and aborts the whole resolution,
even though a later peer holds a strictly longer valid chain that the claimed
behaviour would have adopted. -/
theorem resolve_conflict_raises_aborts :
    resolve_conflict constHash wState
      [FetchResult.raises, FetchResult.response 200 2 wChain2] = none ∧
    resolve_conflict constHash wState [FetchResult.response 200 2 wChain2] =
      some (wReplaced, true) := by
  exact ⟨rfl, by decide⟩

/-- Claim C4 (amended): a fetch that returns a non-success status is skipped
and the scan continues with the remaining peers exactly as if that peer were
absent; a fetch that raises is not handled — the exception aborts the whole
resolution. -/
theorem resolve_conflict_skip_non200 (H : Block → String) (st : LedgerState)
    (s : Nat) (l : Int) (c : List Block) (peers : List FetchResult) (hs : s ≠ 200) :
    resolve_conflict H st (FetchResult.response s l c :: peers) =
      resolve_conflict H st peers ∧
    resolve_conflict H st (FetchResult.raises :: peers) = none := by
  constructor
  · unfold resolve_conflict
    rw [resolve_loop_cons_not200 H s l c peers _ _ hs]
  · unfold resolve_conflict
    rw [resolve_loop_cons_raises]

/-- Witness for C4 (amended): a 404 response is skipped in front of an empty
peer list, and a raising fetch aborts. -/
theorem resolve_conflict_skip_non200_witness :
    resolve_conflict constHash wState [FetchResult.response 404 99 wChain2] =
      resolve_conflict constHash wState [] ∧
    resolve_conflict constHash wState [FetchResult.raises] = none :=
  resolve_conflict_skip_non200 constHash wState 404 99 wChain2 [] (by decide)

/-- Helper: two key-sorted association lists with duplicate-free keys that are
permutations of each other are equal. -/
theorem sorted_nodupkeys_perm_eq {V : Type} :
    ∀ l1 l2 : List (String × V), l1.Perm l2 → List.Sorted (@keyLE V) l1 →
      List.Sorted (@keyLE V) l2 → (l1.map Prod.fst).Nodup → l1 = l2 := by
  intro l1
  induction l1 with
  | nil =>
    intro l2 hp _ _ _
    exact hp.nil_eq
  | cons a t1 ih =>
    intro l2 hp hs1 hs2 hnd
    cases l2 with
    | nil => exact absurd hp.eq_nil (by simp)
    | cons b t2 =>
      by_cases hab : a = b
      · subst hab
        have ht : t1.Perm t2 := hp.cons_inv
        rw [List.map_cons] at hnd
        rw [ih t2 ht hs1.of_cons hs2.of_cons (List.nodup_cons.mp hnd).2]
      · exfalso
        have hmem_a : a ∈ b :: t2 := hp.subset (List.mem_cons_self a t1)
        have ha2 : a ∈ t2 := by
          rcases List.mem_cons.mp hmem_a with h | h
          · exact absurd h hab
          · exact h
        have hba : keyLE b a := List.rel_of_sorted_cons hs2 a ha2
        have hmem_b : b ∈ a :: t1 := hp.symm.subset (List.mem_cons_self b t2)
        have hb1 : b ∈ t1 := by
          rcases List.mem_cons.mp hmem_b with h | h
          · exact absurd h.symm hab
          · exact h
        have hab1 : keyLE a b := List.rel_of_sorted_cons hs1 b hb1
        have hkey : a.1 ∈ t1.map Prod.fst := by
          rw [le_antisymm hab1 hba]
          exact List.mem_map_of_mem Prod.fst hb1
        rw [List.map_cons] at hnd
        exact (List.nodup_cons.mp hnd).1 hkey

/-- Helper: on duplicate-free keys, sorting by key is invariant under
permutation of the items (the dictionary's insertion order). -/
theorem sortKeys_perm_eq {V : Type} (d1 d2 : List (String × V)) (hp : d1.Perm d2)
    (hnd : (d1.map Prod.fst).Nodup) : sortKeys d1 = sortKeys d2 :=
  sorted_nodupkeys_perm_eq (sortKeys d1) (sortKeys d2)
    ((List.perm_insertionSort _ d1).trans (hp.trans (List.perm_insertionSort _ d2).symm))
    (List.sorted_insertionSort _ d1) (List.sorted_insertionSort _ d2)
    ((((List.perm_insertionSort (@keyLE V) d1).map Prod.fst).nodup_iff).mpr hnd)

/-- Claim C9: `Blockchain.hash` is deterministic across field insertion order —
two dictionaries holding the same keys (duplicate-free) and values, in any
insertion order, hash to the same string, whatever the external digest and
value rendering do. -/
theorem hash_insertion_order_independent {V : Type} (sha256hex : String → String)
    (renderV : V → String) (d1 d2 : List (String × V)) (hp : d1.Perm d2)
    (hnd : (d1.map Prod.fst).Nodup) :
    Blockchain.hash sha256hex renderV d1 = Blockchain.hash sha256hex renderV d2 := by
  unfold Blockchain.hash
  rw [sortKeys_perm_eq d1 d2 hp hnd]

/-- Witness for C9: the two insertion orders of a two-field dictionary hash
identically. -/
theorem hash_insertion_order_independent_witness :
    Blockchain.hash id toString [("b", (1 : Nat)), ("a", 2)] =
      Blockchain.hash id toString [("a", (2 : Nat)), ("b", 1)] :=
  hash_insertion_order_independent id toString [("b", 1), ("a", 2)] [("a", 2), ("b", 1)]
    (by decide) (by decide)

end Blockchain
